import Mathlib

/-!
Shallow embedding of `src/scraper.py` (cancer-rankings repository) and proofs
about it.  Pure string utilities are embedded as Lean functions on `List Char`
and `String`; the browser-driven parts (`get_all_site_ids`, `pull_one_site`,
`main`'s iteration loop) are embedded as pure functions over explicitly
injected environments: the sequence of rendered identifiers per scroll cycle,
the filesystem (a map from path to the size of the entry stored there), and
the per-item navigation/name/download outcomes.
-/

namespace Scraper

/-! ### Slug normalizer (`slugify_site_name`, scraper.py lines 36-42) -/

/-- Whitespace characters recognised by Python's `str.strip()` (ASCII range,
which covers all inputs considered here). -/
def pySpace (c : Char) : Bool :=
  c == ' ' || c == '\t' || c == '\n' || c == '\r' || c == '\x0b' || c == '\x0c'

/-- Drop characters satisfying `p` from both ends of the list.  `stripBoth
pySpace` models `str.strip()`; `stripBoth isUnderscore` models
`str.strip("_")`. -/
def stripBoth (p : Char → Bool) (l : List Char) : List Char :=
  ((l.dropWhile p).reverse.dropWhile p).reverse

/-- Lower-casing of one character, modelling Python's `str.lower` on the
ASCII range (all inputs considered here are ASCII). -/
def lowerChar (c : Char) : Char :=
  if 'A' ≤ c ∧ c ≤ 'Z' then Char.ofNat (c.toNat + 32) else c

/-- Replacement `s.replace("&", " and ")` from line 38 of the source:
every ampersand becomes the word `and` surrounded by spaces. -/
def replaceAmp : List Char → List Char
  | [] => []
  | c :: rest =>
    if c == '&' then ' ' :: 'a' :: 'n' :: 'd' :: ' ' :: replaceAmp rest
    else c :: replaceAmp rest

/-- Apostrophe-like characters removed by `re.sub(r"[’'`]", "", s)` (line 39):
right single quotation mark, ASCII apostrophe (code 39), backtick (code 96). -/
def isQuoteChar (c : Char) : Bool :=
  c == '’' || c == Char.ofNat 39 || c == Char.ofNat 96

/-- Characters inside the class `[a-z0-9]`. -/
def isAlnumLower (c : Char) : Bool :=
  (decide ('a' ≤ c) && decide (c ≤ 'z')) || (decide ('0' ≤ c) && decide (c ≤ '9'))

/-- Core of `re.sub(r"X+", repl, s)` for a character class `X`: replace every
maximal run of characters satisfying `p` by the single character `r`.  The
boolean argument records whether we are currently inside such a run. -/
def collapseRunsAux (p : Char → Bool) (r : Char) : Bool → List Char → List Char
  | _, [] => []
  | inRun, c :: rest =>
    if p c then
      if inRun then collapseRunsAux p r true rest
      else r :: collapseRunsAux p r true rest
    else c :: collapseRunsAux p r false rest

/-- Replace every maximal run of characters satisfying `p` by the single
character `r` (models `re.sub` with a one-class `+` pattern). -/
def collapseRuns (p : Char → Bool) (r : Char) (l : List Char) : List Char :=
  collapseRunsAux p r false l

/-- Test for the underscore character. -/
def isUnderscore (c : Char) : Bool := c == '_'

/-- List-level body of `slugify_site_name` (scraper.py lines 36-42), one `let`
per line of the source: strip, lower, ampersand expansion, quote stripping,
collapse of non-`[a-z0-9]` runs to `_`, collapse of `_` runs, strip of `_`
from both ends. -/
def slugifyList (l : List Char) : List Char :=
  let s1 := (stripBoth pySpace l).map lowerChar
  let s2 := replaceAmp s1
  let s3 := s2.filter (fun c => !(isQuoteChar c))
  let s4 := collapseRuns (fun c => !(isAlnumLower c)) '_' s3
  let s5 := collapseRuns isUnderscore '_' s4
  stripBoth isUnderscore s5

/-- Embedding of `slugify_site_name` (scraper.py lines 36-42). -/
def slugify_site_name (s : String) : String :=
  String.mk (slugifyList s.toList)

/-! ### Artifact manifest (`SPECS`, scraper.py lines 14-33) -/

/-- Embedding of the `PullSpec` dataclass: a key and a URL template.  The
Python template string with its `SITE_ID` placeholder is embedded as the
function `Nat → String` obtained by `template.format(SITE_ID=·)`. -/
structure PullSpec where
  key : String
  url_template : Nat → String

/-- First manifest entry (incidence). -/
def incidenceSpec : PullSpec :=
  ⟨"incidence", fun siteId =>
    "https://seer.cancer.gov/statistics-network/explorer/application.html?site="
      ++ toString siteId
      ++ "&data_type=1&graph_type=2&compareBy=sex&chk_sex_3=3&chk_sex_2=2&rate_type=2&race=1&age_range=1&hdn_stage=101&advopt_precision=1&advopt_show_ci=on#resultsRegion0"⟩

/-- Second manifest entry (mortality). -/
def mortalitySpec : PullSpec :=
  ⟨"mortality", fun siteId =>
    "https://seer.cancer.gov/statistics-network/explorer/application.html?site="
      ++ toString siteId
      ++ "&data_type=2&graph_type=2&compareBy=sex&chk_sex_3=3&chk_sex_2=2&race=1&age_range=1&advopt_precision=1&advopt_show_ci=on"⟩

/-- Third manifest entry (survival). -/
def survivalSpec : PullSpec :=
  ⟨"survival", fun siteId =>
    "https://seer.cancer.gov/statistics-network/explorer/application.html?site="
      ++ toString siteId
      ++ "&data_type=4&graph_type=2&compareBy=sex&chk_sex_3=3&chk_sex_2=2&relative_survival_interval=5&race=1&age_range=1&hdn_stage=101&advopt_precision=1&advopt_show_ci=on"⟩

/-- Embedding of the fixed manifest `SPECS` (scraper.py lines 20-33). -/
def SPECS : List PullSpec := [incidenceSpec, mortalitySpec, survivalSpec]

/-! ### Completion checker (`file_ok`, `is_site_complete`, lines 127-136) -/

/-- Filesystem model: a map from path to `some size` when an entry exists at
that path (with that many bytes), `none` otherwise. -/
def FS : Type := String → Option Nat

/-- Embedding of `os.path.join` for the two-component joins used here. -/
def pathJoin (a b : String) : String := a ++ "/" ++ b

/-- Canonical artifact path `os.path.join(out_dir, key, f"{slug}.csv")`. -/
def sitePath (outDir key slug : String) : String :=
  pathJoin (pathJoin outDir key) (slug ++ ".csv")

/-- Embedding of `file_ok` (lines 127-128):
`os.path.exists(path) and os.path.getsize(path) > 0`. -/
def file_ok (fs : FS) (path : String) : Bool :=
  match fs path with
  | some sz => decide (0 < sz)
  | none => false

/-- Embedding of `is_site_complete` (lines 131-136): the source's for-loop
with an early `return False` is the conjunction over the manifest. -/
def is_site_complete (fs : FS) (outDir slug : String) : Bool :=
  SPECS.all (fun spec => file_ok fs (sitePath outDir spec.key slug))

/-! ### ETA formatter (`fmt_seconds`, lines 180-190) -/

/-- Two-digit zero padding, modelling the format specifier `{...:02d}` for the
sub-unit values (always below 60 here). -/
def pad2 (n : Nat) : String :=
  if n < 10 then "0" ++ toString n else toString n

/-- Embedding of `fmt_seconds` (lines 180-190).  The `float` argument is
modelled as a rational; `int(seconds)` truncates toward zero, which on the
positive branch is the floor. -/
def fmt_seconds (seconds : ℚ) : String :=
  if seconds ≤ 0 then "0s"
  else
    let s : Nat := (Int.floor seconds).toNat
    let h := s / 3600
    let rem := s % 3600
    let m := rem / 60
    let s2 := rem % 60
    if 0 < h then toString h ++ "h" ++ pad2 m ++ "m" ++ pad2 s2 ++ "s"
    else if 0 < m then toString m ++ "m" ++ pad2 s2 ++ "s"
    else toString s2 ++ "s"

/-! ### List discovery engine (`get_all_site_ids`, lines 76-124)

The browser is abstracted by `reads : Nat → Finset Nat`, the set of
identifiers extracted from the rendered option elements at the n-th
scroll+read cycle (the `page.evaluate(_extract_script())` call).  Scrolling
and the 250ms settle delay have no other observable effect in the model. -/

/-- State of the discovery `while` loop: the accumulated `seen` set and the
`stable_rounds` counter. -/
structure DiscState where
  seen : Finset Nat
  stable : Nat
deriving DecidableEq

/-- One iteration of the loop body (lines 100-121): union the freshly read
identifiers into `seen`; increment `stable_rounds` if the cycle added no new
identifier (`after == before`), otherwise reset it to 0. -/
def discStep (reads : Nat → Finset Nat) (n : Nat) (st : DiscState) : DiscState :=
  let s := st.seen ∪ reads n
  ⟨s, if s.card = st.seen.card then st.stable + 1 else 0⟩

/-- State of the discovery loop just before cycle `n`, were the loop to run
unconditionally (the real loop stops at the first state with `stable = 6`). -/
def discState (reads : Nat → Finset Nat) : Nat → DiscState
  | 0 => ⟨∅, 0⟩
  | n + 1 => discStep reads n (discState reads n)

/-- Fuel-indexed unfolding of `while stable_rounds < 6` (line 99): the second
argument is the index of the next cycle. -/
def discLoop (reads : Nat → Finset Nat) : Nat → Nat → DiscState → DiscState
  | 0, _, st => st
  | fuel + 1, n, st =>
    if st.stable < 6 then discLoop reads fuel (n + 1) (discStep reads n st) else st

/-- Embedding of `get_all_site_ids` (lines 76-124): run the loop from the
empty accumulated set and a zero counter and return `sorted(seen)`.  `fuel`
bounds the number of cycles; the theorems show that beyond the loop's actual
stopping cycle the result no longer depends on it. -/
def get_all_site_ids (reads : Nat → Finset Nat) (fuel : Nat) : List Nat :=
  (discLoop reads fuel 0 ⟨∅, 0⟩).seen.sort (· ≤ ·)

/-! ### Item pull engine (`pull_one_site`, lines 139-177)

The environment injects the outcome of each browser primitive: whether a
`page.goto(url)` succeeds, the display name resolved by `get_site_name`
(`none` both for its timeout and for an empty label), and whether
`download_csv` succeeds for a given output path.  The traces record, in
order, the URLs passed to `page.goto` and the output paths for which
`download_csv` was invoked. -/

/-- Injected outcomes of the browser primitives used by `pull_one_site`. -/
structure PullEnv where
  gotoOk : String → Bool
  siteName : Option String
  downloadOk : String → Bool
  fs : FS

/-- Embedding of `dict.setdefault` on an association list kept in insertion
order: an existing key wins, a new key is appended. -/
def setdefault (m : List (String × String)) (k v : String) : List (String × String) :=
  if m.any (fun kv => kv.1 == k) then m else m ++ [(k, v)]

/-- Result of `pull_one_site`: the returned boolean, the list of URLs
navigated to (attempted `page.goto` calls), the list of output paths for
which a download was attempted, and the updated name map. -/
structure PullResult where
  ok : Bool
  navs : List String
  downloads : List String
  nameMap : List (String × String)

/-- Per-kind loop of `pull_one_site` (lines 161-175): skip a kind whose file
is already present and non-empty (counting it as a success), otherwise
navigate to the kind's URL (a timeout skips the kind) and attempt the
download, OR-ing the outcome into `ok_any`. -/
def pullKinds (env : PullEnv) (siteId : Nat) (outDir slug : String) :
    List PullSpec → Bool → List String → List String → Bool × List String × List String
  | [], okAny, navs, dls => (okAny, navs, dls)
  | spec :: rest, okAny, navs, dls =>
    let outPath := sitePath outDir spec.key slug
    if file_ok env.fs outPath then
      pullKinds env siteId outDir slug rest true navs dls
    else
      let url := spec.url_template siteId
      if env.gotoOk url then
        pullKinds env siteId outDir slug rest (okAny || env.downloadOk outPath)
          (navs ++ [url]) (dls ++ [outPath])
      else
        pullKinds env siteId outDir slug rest okAny (navs ++ [url]) dls

/-- Embedding of `pull_one_site` (lines 139-177).  `incidenceSpec` is
`SPECS[0]`, whose URL template provides both the initial page load and the
bootstrap URL.  A failed initial navigation or an unresolvable display name
is an immediate per-item failure; a complete item is reported successful
with no further navigation. -/
def pull_one_site (env : PullEnv) (siteId : Nat) (outDir : String)
    (nameMap : List (String × String)) : PullResult :=
  let firstUrl := incidenceSpec.url_template siteId
  if env.gotoOk firstUrl then
    match env.siteName with
    | none => ⟨false, [firstUrl], [], nameMap⟩
    | some siteName =>
      let slug := slugify_site_name siteName
      let nm := setdefault nameMap slug siteName
      if is_site_complete env.fs outDir slug then ⟨true, [firstUrl], [], nm⟩
      else
        let r := pullKinds env siteId outDir slug SPECS false [firstUrl] []
        ⟨r.1, r.2.1, r.2.2, nm⟩
  else ⟨false, [firstUrl], [], nameMap⟩

/-! ### Run orchestrator (`main`, lines 193-278)

Per-item outcomes are injected as `outcome : Nat → Bool`, the value returned
by `pull_one_site` for a given identifier.  The model tracks the data the
claims are about: the consecutive-miss counter, the persisted progress
marker (`progress["last_site_id"]`, written to disk at lines 270-272), the
sequence of attempted identifiers, and whether the circuit breaker fired. -/

/-- Orchestrator loop state. -/
structure RunState where
  misses : Nat
  marker : Option Nat
  attempted : List Nat
  broke : Bool
deriving DecidableEq

/-- Embedding of the `for` loop body of `main` (lines 234-272): attempt the
item; on success reset `misses` to 0, on failure increment it and `break`
out of the loop once it reaches the threshold (line 268) — the `break`
happens before the progress write at lines 270-272, so the breaking item's
identifier is not persisted; in every other case the marker becomes this
item's identifier. -/
def runLoop (outcome : Nat → Bool) (threshold : Nat) : List Nat → RunState → RunState
  | [], st => st
  | id :: rest, st =>
    let attempted1 := st.attempted ++ [id]
    if outcome id then
      runLoop outcome threshold rest ⟨0, some id, attempted1, false⟩
    else
      let m := st.misses + 1
      if threshold ≤ m then ⟨m, st.marker, attempted1, true⟩
      else runLoop outcome threshold rest ⟨m, some id, attempted1, false⟩

/-- Embedding of the resume-index computation (lines 227-230): one past the
position of the persisted marker in the discovered list, or 0 when there is
no marker or the marker is absent from the list. -/
def start_idx (progress : Option Nat) (ids : List Nat) : Nat :=
  match progress with
  | none => 0
  | some last => if last ∈ ids then ids.indexOf last + 1 else 0

/-- The identifiers enumerated by the `for` loop (line 234):
`site_ids[start_idx:]`. -/
def iterIds (progress : Option Nat) (ids : List Nat) : List Nat :=
  ids.drop (start_idx progress ids)

/-- Embedding of `main`'s iteration phase (lines 214-272): run the loop over
the resumed slice from a zero miss counter, an empty attempted list, and the
loaded progress marker. -/
def runMain (outcome : Nat → Bool) (threshold : Nat) (progress : Option Nat)
    (ids : List Nat) : RunState :=
  runLoop outcome threshold (iterIds progress ids) ⟨0, progress, [], false⟩

/-- Marker value after persisting each element of `l` in turn starting from
`p` : the last element of `l` when there is one, otherwise `p`.  Used to
state what `main` actually persists. -/
def markerAfter (p : Option Nat) (l : List Nat) : Option Nat :=
  match l.getLast? with
  | some x => some x
  | none => p

/-- Slug pipeline as worded by the specification (§4.1): trim surrounding
whitespace; lowercase; replace the ampersand character with the word `and`
(set off as a word of its own — the source's replacement string `" and "`);
strip apostrophe-like characters; collapse each maximal run of characters
outside `[a-z0-9]` into a single underscore; collapse repeated underscores;
trim leading and trailing underscores — in exactly that order. -/
def specSlug (s : String) : String :=
  String.mk
    (stripBoth isUnderscore
      (collapseRuns isUnderscore '_'
        (collapseRuns (fun c => !(isAlnumLower c)) '_'
          (List.filter (fun c => !(isQuoteChar c))
            (replaceAmp ((stripBoth pySpace s.toList).map lowerChar))))))

/-! ### Concrete inputs used by counterexamples and witnesses -/

/-- Read sequence refuting C2 as stated: identifier 2 is rendered only at
cycle 7, after six consecutive no-growth cycles have already ended the
loop. -/
def lateReads : Nat → Finset Nat :=
  fun n => if n = 0 then {1} else if n = 7 then {2} else ∅

/-- Read sequence for the witness of the amended C2: everything is rendered
at cycle 0. -/
def promptReads : Nat → Finset Nat :=
  fun n => if n = 0 then {1, 2} else ∅

/-- Environment for the skip-behavior witness: navigation always succeeds,
the display name resolves to `"Foo Bar"`, downloads would fail, and exactly
the three artifact files of slug `foo_bar` exist with 5 bytes each. -/
def wEnv : PullEnv :=
  ⟨fun _ => true, some "Foo Bar", fun _ => false,
    fun p =>
      if p = "out/incidence/foo_bar.csv" ∨ p = "out/mortality/foo_bar.csv" ∨
          p = "out/survival/foo_bar.csv" then
        some 5
      else none⟩

end Scraper

namespace Scraper

/-! ## Helper lemmas about the orchestrator loop -/

/-- When the loop runs to completion without a circuit break, every
enumerated identifier was attempted, in order. -/
lemma runLoop_attempted_of_no_break (o : Nat → Bool) (T : Nat) :
    ∀ (l : List Nat) (st : RunState), (runLoop o T l st).broke = false →
      (runLoop o T l st).attempted = st.attempted ++ l := by
  intro l
  induction l with
  | nil => intro st _; simp [runLoop]
  | cons id rest ih =>
    intro st h
    by_cases ho : o id
    · rw [runLoop] at h ⊢
      simp only [ho, if_true] at h ⊢
      rw [ih _ h]
      simp
    · by_cases hm : T ≤ st.misses + 1
      · rw [runLoop] at h
        simp [ho, hm] at h
      · rw [runLoop] at h ⊢
        simp only [ho, if_false, Bool.false_eq_true, hm] at h ⊢
        rw [ih _ h]
        simp

/-! ## C7: completion gate -/

/-- C7.  `file_ok path` holds exactly when an entry exists at `path` with
strictly positive size, and `is_site_complete` holds exactly when `file_ok`
holds of `out_dir/kind.key/slug.csv` for every kind of the fixed manifest —
all-or-nothing. -/
theorem completion_gate (fs : FS) (outDir slug : String) :
    (∀ path, file_ok fs path = true ↔ ∃ sz, fs path = some sz ∧ 0 < sz) ∧
    (is_site_complete fs outDir slug = true ↔
      ∀ spec ∈ SPECS, file_ok fs (sitePath outDir spec.key slug) = true) := by
  constructor
  · intro path
    unfold file_ok
    cases h : fs path with
    | none => simp
    | some sz => simp
  · unfold is_site_complete
    simp [List.all_eq_true]

/-! ## C9: ETA formatter -/

/-- Evaluation of `fmt_seconds` at a positive natural number of seconds. -/
lemma fmt_seconds_natCast (n : Nat) (hn : 0 < n) :
    fmt_seconds (n : ℚ) =
      if 0 < n / 3600 then
        toString (n / 3600) ++ "h" ++ pad2 (n % 3600 / 60) ++ "m" ++
          pad2 (n % 3600 % 60) ++ "s"
      else if 0 < n % 3600 / 60 then
        toString (n % 3600 / 60) ++ "m" ++ pad2 (n % 3600 % 60) ++ "s"
      else toString (n % 3600 % 60) ++ "s" := by
  have h0 : ¬((n : ℚ) ≤ 0) := not_le.2 (by exact_mod_cast hn)
  rw [fmt_seconds, if_neg h0]
  have hf : (Int.floor ((n : ℚ))).toNat = n := by simp
  simp only [hf]

/-- C9.  `fmt_seconds` renders every zero or negative duration as `"0s"`,
and positive durations with the largest applicable unit first, two-digit
zero-padded sub-units, and higher units omitted when zero; in particular
`fmt_seconds 0 = "0s"`, `fmt_seconds 65 = "1m05s"`,
`fmt_seconds 3661 = "1h01m01s"`. -/
theorem fmt_seconds_spec :
    (∀ q : ℚ, q ≤ 0 → fmt_seconds q = "0s") ∧
    (∀ n : Nat, 0 < n → n < 60 → fmt_seconds (n : ℚ) = toString n ++ "s") ∧
    (∀ n : Nat, 60 ≤ n → n < 3600 →
      fmt_seconds (n : ℚ) = toString (n / 60) ++ "m" ++ pad2 (n % 60) ++ "s") ∧
    (∀ n : Nat, 3600 ≤ n →
      fmt_seconds (n : ℚ) =
        toString (n / 3600) ++ "h" ++ pad2 (n % 3600 / 60) ++ "m" ++
          pad2 (n % 60) ++ "s") ∧
    fmt_seconds 0 = "0s" ∧ fmt_seconds 65 = "1m05s" ∧ fmt_seconds 3661 = "1h01m01s" := by
  refine ⟨?_, ?_, ?_, ?_, by decide, by decide, by decide⟩
  · intro q hq
    rw [fmt_seconds, if_pos hq]
  · intro n hn h60
    rw [fmt_seconds_natCast n hn]
    have h1 : n / 3600 = 0 := Nat.div_eq_of_lt (by omega)
    have h2 : n % 3600 = n := Nat.mod_eq_of_lt (by omega)
    have h3 : n / 60 = 0 := Nat.div_eq_of_lt h60
    have h4 : n % 60 = n := Nat.mod_eq_of_lt h60
    simp [h1, h2, h3, h4]
  · intro n h60 h3600
    rw [fmt_seconds_natCast n (by omega)]
    have h1 : n / 3600 = 0 := Nat.div_eq_of_lt (by omega)
    have h2 : n % 3600 = n := Nat.mod_eq_of_lt (by omega)
    have h3 : 0 < n / 60 := Nat.div_pos h60 (by norm_num)
    simp [h1, h2, h3]
  · intro n h3600
    rw [fmt_seconds_natCast n (by omega)]
    have h1 : 0 < n / 3600 := Nat.div_pos h3600 (by norm_num)
    have h2 : n % 3600 % 60 = n % 60 := Nat.mod_mod_of_dvd n (by norm_num)
    simp [h1, h2]

/-- Closed instantiation of `fmt_seconds_spec`'s conditional parts. -/
theorem fmt_seconds_spec_witness :
    (((-3 : ℚ) ≤ 0) ∧ fmt_seconds (-3) = "0s") ∧
    ((0 < 59 ∧ 59 < 60) ∧ fmt_seconds ((59 : Nat) : ℚ) = toString 59 ++ "s") ∧
    ((3600 ≤ 3661) ∧
      fmt_seconds ((3661 : Nat) : ℚ) =
        toString (3661 / 3600) ++ "h" ++ pad2 (3661 % 3600 / 60) ++ "m" ++
          pad2 (3661 % 60) ++ "s") :=
  ⟨⟨by norm_num, fmt_seconds_spec.1 (-3) (by norm_num)⟩,
    ⟨⟨by norm_num, by norm_num⟩, fmt_seconds_spec.2.1 59 (by norm_num) (by norm_num)⟩,
    ⟨by norm_num, fmt_seconds_spec.2.2.2.1 3661 (by norm_num)⟩⟩

/-! ## C8: skip behavior of `pull_one_site` -/

/-- C8.  For an item whose initial page load succeeds, whose display name
resolves, and whose slug is already complete, `pull_one_site` reports
success, navigates only to the item's initial page, and attempts no
download. -/
theorem skip_complete_no_navigation (env : PullEnv) (siteId : Nat) (outDir : String)
    (nameMap : List (String × String)) (nm : String)
    (hgoto : env.gotoOk (incidenceSpec.url_template siteId) = true)
    (hname : env.siteName = some nm)
    (hdone : is_site_complete env.fs outDir (slugify_site_name nm) = true) :
    (pull_one_site env siteId outDir nameMap).ok = true ∧
    (pull_one_site env siteId outDir nameMap).navs = [incidenceSpec.url_template siteId] ∧
    (pull_one_site env siteId outDir nameMap).downloads = [] := by
  simp [pull_one_site, hgoto, hname, hdone]

/-- Closed instantiation of `skip_complete_no_navigation` at the concrete
environment `wEnv`. -/
theorem skip_complete_no_navigation_witness :
    (wEnv.gotoOk (incidenceSpec.url_template 12) = true ∧
      wEnv.siteName = some "Foo Bar" ∧
      is_site_complete wEnv.fs "out" (slugify_site_name "Foo Bar") = true) ∧
    ((pull_one_site wEnv 12 "out" []).ok = true ∧
      (pull_one_site wEnv 12 "out" []).navs = [incidenceSpec.url_template 12] ∧
      (pull_one_site wEnv 12 "out" []).downloads = []) :=
  ⟨⟨rfl, rfl, by decide⟩,
    skip_complete_no_navigation wEnv 12 "out" [] "Foo Bar" rfl rfl (by decide)⟩

/-! ## C3: resume index -/

/-- C3.  With a strictly ascending discovered sequence: a persisted marker
equal to the `K`-th element makes the run enumerate exactly the elements
after position `K`, still in ascending order; no marker, or a marker absent
from the sequence, starts from the first element; and when no circuit break
occurs the attempted identifiers are exactly the enumerated slice. -/
theorem resume_correct (ids : List Nat) (hs : List.Sorted (· < ·) ids) :
    (∀ (K : Nat) (hK : K < ids.length),
      iterIds (some (ids.get ⟨K, hK⟩)) ids = ids.drop (K + 1) ∧
      List.Sorted (· < ·) (ids.drop (K + 1))) ∧
    iterIds none ids = ids ∧
    (∀ m, m ∉ ids → iterIds (some m) ids = ids) ∧
    (∀ (o : Nat → Bool) (T : Nat) (progress : Option Nat),
      (runMain o T progress ids).broke = false →
      (runMain o T progress ids).attempted = iterIds progress ids) := by
  refine ⟨?_, by simp [iterIds, start_idx], ?_, ?_⟩
  · intro K hK
    refine ⟨?_, hs.drop⟩
    have hmem : ids.get ⟨K, hK⟩ ∈ ids := ids.get_mem K hK
    have hidx := List.indexOf_getElem hs.nodup K hK
    simp [iterIds, start_idx, hmem, hidx]
  · intro m hm
    simp [iterIds, start_idx, hm]
  · intro o T progress h
    have := runLoop_attempted_of_no_break o T (iterIds progress ids) ⟨0, progress, [], false⟩ h
    simpa [runMain] using this

/-- Closed instantiation of `resume_correct` at `ids = [2, 5, 9]`, `K = 1`. -/
theorem resume_correct_witness :
    List.Sorted (· < ·) [2, 5, 9] ∧
    iterIds (some ([2, 5, 9].get ⟨1, by decide⟩)) [2, 5, 9] = [2, 5, 9].drop 2 :=
  ⟨by decide, (((resume_correct [2, 5, 9] (by decide)).1) 1 (by decide)).1⟩

/-! ## More orchestrator-loop lemmas (circuit breaker and progress marker) -/

/-- Extending a processed block by one element extends the persisted-marker
computation. -/
lemma markerAfter_cons (p : Option Nat) (a : Nat) (l : List Nat) :
    markerAfter (some a) l = markerAfter p (a :: l) := by
  cases l with
  | nil => simp [markerAfter]
  | cons b l' =>
    unfold markerAfter
    rw [List.getLast?_cons_cons]
    cases h : (b :: l').getLast? with
    | some x => rfl
    | none => exact absurd h (by simp)

/-- The attempted identifiers always form a prefix of the enumerated list. -/
lemma runLoop_attempted_take (o : Nat → Bool) (T : Nat) :
    ∀ (l : List Nat) (st : RunState), ∃ k, k ≤ l.length ∧
      (runLoop o T l st).attempted = st.attempted ++ l.take k := by
  intro l
  induction l with
  | nil => intro st; exact ⟨0, by simp [runLoop]⟩
  | cons id rest ih =>
    intro st
    by_cases ho : o id
    · obtain ⟨k, hk, he⟩ := ih ⟨0, some id, st.attempted ++ [id], false⟩
      refine ⟨k + 1, by simpa using hk, ?_⟩
      rw [runLoop]
      simp only [ho, if_true]
      rw [he]
      simp
    · by_cases hm : T ≤ st.misses + 1
      · refine ⟨1, by simp, ?_⟩
        rw [runLoop]
        simp [ho, hm]
      · obtain ⟨k, hk, he⟩ := ih ⟨st.misses + 1, some id, st.attempted ++ [id], false⟩
        refine ⟨k + 1, by simpa using hk, ?_⟩
        rw [runLoop]
        simp only [ho, if_false, Bool.false_eq_true, hm]
        rw [he]
        simp

/-- Core circuit-break lemma: a block of consecutive failures long enough to
push the miss counter to the threshold breaks the loop, within at most
`T - misses` further attempts. -/
lemma runLoop_breaks_inner (o : Nat → Bool) (T : Nat) :
    ∀ (mid post : List Nat) (st : RunState),
      st.misses < T → T ≤ st.misses + mid.length → (∀ i ∈ mid, o i = false) →
      (runLoop o T (mid ++ post) st).broke = true ∧
      (runLoop o T (mid ++ post) st).attempted.length ≤
        st.attempted.length + (T - st.misses) := by
  intro mid
  induction mid with
  | nil => intro post st hlt hge _; simp at hge; omega
  | cons i mid' ih =>
    intro post st hlt hge hfail
    simp only [List.length_cons] at hge
    have hi : o i = false := hfail i (by simp)
    by_cases hm : T ≤ st.misses + 1
    · rw [List.cons_append, runLoop]
      simp only [hi, Bool.false_eq_true, if_false, hm, if_true]
      refine ⟨by simp, ?_⟩
      have hl : (st.attempted ++ [i]).length = st.attempted.length + 1 := by simp
      show (st.attempted ++ [i]).length ≤ st.attempted.length + (T - st.misses)
      omega
    · rw [List.cons_append, runLoop]
      simp only [hi, Bool.false_eq_true, if_false, hm]
      have hrec := ih post ⟨st.misses + 1, some i, st.attempted ++ [i], false⟩
        (Nat.lt_of_not_le hm) (by show T ≤ st.misses + 1 + mid'.length; omega)
        (fun j hj => hfail j (by simp [hj]))
      refine ⟨hrec.1, ?_⟩
      refine le_trans hrec.2 ?_
      have hl : (st.attempted ++ [i]).length = st.attempted.length + 1 := by simp
      show (st.attempted ++ [i]).length + (T - (st.misses + 1)) ≤
        st.attempted.length + (T - st.misses)
      omega

/-- Circuit-break lemma: as soon as the enumerated list contains `T`
consecutive failures, the loop breaks, and it does so no later than the end
of that failure window. -/
lemma runLoop_breaks (o : Nat → Bool) (T : Nat) :
    ∀ (pre mid post : List Nat) (st : RunState),
      st.misses < T → mid.length = T → (∀ i ∈ mid, o i = false) →
      (runLoop o T (pre ++ mid ++ post) st).broke = true ∧
      (runLoop o T (pre ++ mid ++ post) st).attempted.length ≤
        st.attempted.length + pre.length + T := by
  intro pre
  induction pre with
  | nil =>
    intro mid post st hlt hlen hfail
    have hrec := runLoop_breaks_inner o T mid post st hlt (by omega) hfail
    refine ⟨by simpa using hrec.1, ?_⟩
    refine le_trans (by simpa using hrec.2) ?_
    have : T - st.misses ≤ T := Nat.sub_le T st.misses
    simp only [List.length_nil]
    omega
  | cons a pre' ih =>
    intro mid post st hlt hlen hfail
    by_cases ha : o a
    · rw [List.cons_append, List.cons_append, runLoop]
      simp only [ha, if_true]
      have hrec := ih mid post ⟨0, some a, st.attempted ++ [a], false⟩
        (by show 0 < T; omega) hlen hfail
      refine ⟨hrec.1, le_trans hrec.2 ?_⟩
      have hl : (st.attempted ++ [a]).length = st.attempted.length + 1 := by simp
      show (st.attempted ++ [a]).length + pre'.length + T ≤
        st.attempted.length + (a :: pre').length + T
      simp only [List.length_cons]
      omega
    · by_cases hm : T ≤ st.misses + 1
      · rw [List.cons_append, List.cons_append, runLoop]
        simp only [ha, Bool.false_eq_true, if_false, hm, if_true]
        refine ⟨by simp, ?_⟩
        have hl : (st.attempted ++ [a]).length = st.attempted.length + 1 := by simp
        show (st.attempted ++ [a]).length ≤ st.attempted.length + (a :: pre').length + T
        simp only [List.length_cons]
        omega
      · rw [List.cons_append, List.cons_append, runLoop]
        simp only [ha, Bool.false_eq_true, if_false, hm]
        have hrec := ih mid post ⟨st.misses + 1, some a, st.attempted ++ [a], false⟩
          (Nat.lt_of_not_le hm) hlen hfail
        refine ⟨hrec.1, le_trans hrec.2 ?_⟩
        have hl : (st.attempted ++ [a]).length = st.attempted.length + 1 := by simp
        show (st.attempted ++ [a]).length + pre'.length + T ≤
          st.attempted.length + (a :: pre').length + T
        simp only [List.length_cons]
        omega

/-- When the loop breaks, the attempted sequence ends in exactly `T`
consecutive failures and the final miss counter equals the threshold. -/
lemma runLoop_break_trailing (o : Nat → Bool) (T : Nat) :
    ∀ (l : List Nat) (st : RunState),
      st.broke = false → st.misses < T →
      (∃ suff : List Nat, suff.length = st.misses ∧ (∀ i ∈ suff, o i = false) ∧
        List.IsSuffix suff st.attempted) →
      (runLoop o T l st).broke = true →
      ∃ mid : List Nat, mid.length = T ∧ (∀ i ∈ mid, o i = false) ∧
        List.IsSuffix mid (runLoop o T l st).attempted ∧
        (runLoop o T l st).misses = T := by
  intro l
  induction l with
  | nil =>
    intro st hb _ _ hb'
    rw [runLoop] at hb'
    rw [hb] at hb'
    exact absurd hb' (by simp)
  | cons id rest ih =>
    intro st hb hlt hsuff hb'
    by_cases ho : o id
    · rw [runLoop] at hb' ⊢
      simp only [ho, if_true] at hb' ⊢
      exact ih _ rfl (by show 0 < T; omega)
        ⟨[], by simp, by simp, ⟨st.attempted ++ [id], by simp⟩⟩ hb'
    · by_cases hm : T ≤ st.misses + 1
      · obtain ⟨suff, hslen, hsfail, t, ht⟩ := hsuff
        rw [runLoop]
        simp only [ho, Bool.false_eq_true, if_false, hm, if_true]
        refine ⟨suff ++ [id], ?_, ?_, ⟨t, ?_⟩, ?_⟩
        · show (suff ++ [id]).length = T
          simp only [List.length_append, List.length_cons, List.length_nil]
          omega
        · intro j hj
          rcases List.mem_append.1 hj with h | h
          · exact hsfail j h
          · simp at h
            subst h
            simpa using ho
        · show t ++ (suff ++ [id]) = st.attempted ++ [id]
          rw [← List.append_assoc, ht]
        · show st.misses + 1 = T
          omega
      · rw [runLoop] at hb' ⊢
        simp only [ho, Bool.false_eq_true, if_false, hm] at hb' ⊢
        obtain ⟨suff, hslen, hsfail, t, ht⟩ := hsuff
        refine ih _ rfl (Nat.lt_of_not_le hm) ⟨suff ++ [id], ?_, ?_,
          ⟨t, by show t ++ (suff ++ [id]) = st.attempted ++ [id]; rw [← List.append_assoc, ht]⟩⟩ hb'
        · show (suff ++ [id]).length = st.misses + 1
          simp only [List.length_append, List.length_cons, List.length_nil]
          omega
        · intro j hj
          rcases List.mem_append.1 hj with h | h
          · exact hsfail j h
          · simp at h
            subst h
            simpa using ho

/-- Final persisted marker of a run: the last fully persisted identifier.
When the loop does not break, that is the last attempted identifier (or the
initial marker when nothing was attempted); when it breaks, the breaking
item is not persisted, so it is the last attempted identifier before the
breaking one. -/
lemma runLoop_marker (o : Nat → Bool) (T : Nat) :
    ∀ (l : List Nat) (st : RunState), st.broke = false →
      ((runLoop o T l st).broke = false →
        (runLoop o T l st).marker = markerAfter st.marker l) ∧
      ((runLoop o T l st).broke = true →
        ∃ l₁ x l₂, l = l₁ ++ x :: l₂ ∧
          (runLoop o T l st).attempted = st.attempted ++ l₁ ++ [x] ∧
          (runLoop o T l st).marker = markerAfter st.marker l₁) := by
  intro l
  induction l with
  | nil =>
    intro st hb
    constructor
    · intro _; simp [runLoop, markerAfter]
    · intro hb'
      rw [runLoop, hb] at hb'
      exact absurd hb' (by simp)
  | cons id rest ih =>
    intro st hb
    by_cases ho : o id
    · constructor
      · intro hb'
        rw [runLoop] at hb' ⊢
        simp only [ho, if_true] at hb' ⊢
        rw [(ih _ rfl).1 hb']
        exact markerAfter_cons st.marker id rest
      · intro hb'
        rw [runLoop] at hb' ⊢
        simp only [ho, if_true] at hb' ⊢
        obtain ⟨l₁, x, l₂, hrest, hatt, hmark⟩ := (ih _ rfl).2 hb'
        refine ⟨id :: l₁, x, l₂, by simp [hrest], ?_, ?_⟩
        · rw [hatt]; simp
        · rw [hmark]; exact markerAfter_cons st.marker id l₁
    · by_cases hm : T ≤ st.misses + 1
      · constructor
        · intro hb'
          rw [runLoop] at hb'
          simp [ho, hm] at hb'
        · intro _
          rw [runLoop]
          simp only [ho, if_false, Bool.false_eq_true, hm, if_true]
          exact ⟨[], id, rest, by simp, by simp, by simp [markerAfter]⟩
      · constructor
        · intro hb'
          rw [runLoop] at hb' ⊢
          simp only [ho, if_false, Bool.false_eq_true, hm] at hb' ⊢
          rw [(ih _ rfl).1 hb']
          exact markerAfter_cons st.marker id rest
        · intro hb'
          rw [runLoop] at hb' ⊢
          simp only [ho, if_false, Bool.false_eq_true, hm] at hb' ⊢
          obtain ⟨l₁, x, l₂, hrest, hatt, hmark⟩ := (ih _ rfl).2 hb'
          refine ⟨id :: l₁, x, l₂, by simp [hrest], ?_, ?_⟩
          · rw [hatt]; simp
          · rw [hmark]; exact markerAfter_cons st.marker id l₁

/-- The slice enumerated with no stored marker is the whole list. -/
lemma iterIds_none (ids : List Nat) : iterIds none ids = ids := by
  simp [iterIds, start_idx]

/-! ## C4: circuit breaker -/

/-- C4.  With threshold `T ≥ 1`: a success resets the consecutive-miss
counter to zero (the loop continues from a zero-miss state); the attempted
identifiers always form a prefix of the enumerated list; as soon as `T`
consecutive failures occur the loop halts within that window, so no later
identifier is ever processed; and a circuit break happens only when the
attempted sequence ends in `T` consecutive failures. -/
theorem circuit_breaker (o : Nat → Bool) (T : Nat) (hT : 1 ≤ T) (ids : List Nat) :
    (∀ (st : RunState) (id : Nat) (rest : List Nat), o id = true →
      runLoop o T (id :: rest) st =
        runLoop o T rest ⟨0, some id, st.attempted ++ [id], false⟩) ∧
    ((runMain o T none ids).attempted =
      ids.take (runMain o T none ids).attempted.length) ∧
    (∀ pre mid post, ids = pre ++ mid ++ post → mid.length = T →
      (∀ i ∈ mid, o i = false) →
      (runMain o T none ids).broke = true ∧
      (runMain o T none ids).attempted.length ≤ pre.length + T) ∧
    ((runMain o T none ids).broke = true →
      ∃ mid, mid.length = T ∧ (∀ i ∈ mid, o i = false) ∧
        List.IsSuffix mid (runMain o T none ids).attempted) := by
  refine ⟨?_, ?_, ?_, ?_⟩
  · intro st id rest h
    rw [runLoop]
    simp [h]
  · obtain ⟨k, hk, he⟩ := runLoop_attempted_take o T (iterIds none ids) ⟨0, none, [], false⟩
    rw [iterIds_none] at he hk
    unfold runMain
    rw [iterIds_none, he]
    simp only [List.nil_append, List.length_take]
    rw [Nat.min_eq_left hk]
  · intro pre mid post hid hlen hfail
    have hrec := runLoop_breaks o T pre mid post ⟨0, none, [], false⟩
      (by show 0 < T; omega) hlen hfail
    unfold runMain
    rw [iterIds_none, hid]
    exact ⟨hrec.1, by simpa using hrec.2⟩
  · intro hb
    unfold runMain at hb ⊢
    obtain ⟨mid, h1, h2, h3, _⟩ := runLoop_break_trailing o T (iterIds none ids)
      ⟨0, none, [], false⟩ rfl (by show 0 < T; omega) ⟨[], rfl, by simp, ⟨[], rfl⟩⟩ hb
    exact ⟨mid, h1, h2, h3⟩

/-- Closed instantiation of `circuit_breaker`: threshold 2, failures at
identifiers 3 and 4, so identifier 9 is never attempted. -/
theorem circuit_breaker_witness :
    ((1 : Nat) ≤ 2 ∧ ([3, 4] : List Nat).length = 2 ∧
      (∀ i ∈ ([3, 4] : List Nat), (fun i => !(i == 3 || i == 4)) i = false)) ∧
    ((runMain (fun i => !(i == 3 || i == 4)) 2 none [1, 3, 4, 9]).broke = true ∧
      (runMain (fun i => !(i == 3 || i == 4)) 2 none [1, 3, 4, 9]).attempted.length ≤
        [1].length + 2) :=
  ⟨⟨by norm_num, rfl, by decide⟩,
    (circuit_breaker (fun i => !(i == 3 || i == 4)) 2 (by norm_num) [1, 3, 4, 9]).2.2.1
      [1] [3, 4] [9] rfl rfl (by decide)⟩

/-! ## C1: progress-marker persistence -/

/-- C1 counterexample.  With threshold 1 and a failing item 5, the item is
attempted but the loop breaks before the progress write, so the persisted
marker does not refer to the attempted identifier — refuting the claim that
the marker is persisted after every attempted item, including the one whose
failure triggers the circuit break. -/
theorem progress_marker_cex :
    (runMain (fun _ => false) 1 none [5]).attempted = [5] ∧
    ¬((runMain (fun _ => false) 1 none [5]).marker = some 5) := by decide

/-- C1 amended.  The marker is persisted after every attempted item except
the one whose failure triggers the circuit break: with no break the final
marker is the last attempted identifier (or the loaded marker when nothing
was attempted); on a break the final marker is the last attempted
identifier before the breaking one (or the loaded marker when the breaking
item was the first attempted). -/
theorem progress_marker_persistence (o : Nat → Bool) (T : Nat) (p₀ : Option Nat)
    (ids : List Nat) :
    ((runMain o T p₀ ids).broke = false →
      (runMain o T p₀ ids).marker = markerAfter p₀ (runMain o T p₀ ids).attempted) ∧
    ((runMain o T p₀ ids).broke = true →
      (runMain o T p₀ ids).attempted ≠ [] ∧
      (runMain o T p₀ ids).marker =
        markerAfter p₀ (runMain o T p₀ ids).attempted.dropLast) := by
  unfold runMain
  have hm := runLoop_marker o T (iterIds p₀ ids) ⟨0, p₀, [], false⟩ rfl
  constructor
  · intro hb
    rw [hm.1 hb, runLoop_attempted_of_no_break o T _ _ hb]
    simp
  · intro hb
    obtain ⟨l₁, x, l₂, hsplit, hatt, hmark⟩ := hm.2 hb
    rw [hatt, hmark]
    refine ⟨by simp, ?_⟩
    simp [List.dropLast_concat]

/-- Closed instantiation of `progress_marker_persistence`: threshold 2, both
items fail, the second failure breaks the loop; only item 5 is persisted. -/
theorem progress_marker_persistence_witness :
    (runMain (fun _ => false) 2 none [5, 7]).broke = true ∧
    ((runMain (fun _ => false) 2 none [5, 7]).attempted ≠ [] ∧
      (runMain (fun _ => false) 2 none [5, 7]).marker =
        markerAfter none (runMain (fun _ => false) 2 none [5, 7]).attempted.dropLast) :=
  ⟨by decide, (progress_marker_persistence (fun _ => false) 2 none [5, 7]).2 (by decide)⟩

/-! ## Helper lemmas about the slug normalizer -/

/-- Characters of a run-collapsed list: the replacement character, or an
input character outside the collapsed class. -/
lemma collapseRunsAux_mem (p : Char → Bool) (r : Char) :
    ∀ (l : List Char) (b : Bool) (c : Char), c ∈ collapseRunsAux p r b l →
      c = r ∨ (c ∈ l ∧ p c = false) := by
  intro l
  induction l with
  | nil => intro b c h; simp [collapseRunsAux] at h
  | cons a l ih =>
    intro b c h
    simp only [collapseRunsAux] at h
    by_cases ha : p a = true
    · rw [if_pos ha] at h
      cases b with
      | true =>
        simp only [if_true] at h
        rcases ih true c h with h' | ⟨h1, h2⟩
        · exact Or.inl h'
        · exact Or.inr ⟨List.mem_cons_of_mem a h1, h2⟩
      | false =>
        simp only [Bool.false_eq_true, if_false] at h
        rcases List.mem_cons.1 h with h' | h'
        · exact Or.inl h'
        · rcases ih true c h' with h'' | ⟨h1, h2⟩
          · exact Or.inl h''
          · exact Or.inr ⟨List.mem_cons_of_mem a h1, h2⟩
    · rw [if_neg ha] at h
      have hpa : p a = false := by
        cases hpa : p a
        · rfl
        · exact absurd hpa ha
      rcases List.mem_cons.1 h with h' | h'
      · exact Or.inr ⟨by simp [h'], by rw [h']; exact hpa⟩
      · rcases ih false c h' with h'' | ⟨h1, h2⟩
        · exact Or.inl h''
        · exact Or.inr ⟨List.mem_cons_of_mem a h1, h2⟩

/-- After a run has just been collapsed, the next emitted character is
outside the collapsed class. -/
lemma collapseRunsAux_head_of_true (p : Char → Bool) (r : Char) :
    ∀ (l : List Char) (c : Char),
      (collapseRunsAux p r true l).head? = some c → p c = false := by
  intro l
  induction l with
  | nil => intro c h; simp [collapseRunsAux] at h
  | cons a l ih =>
    intro c h
    simp only [collapseRunsAux] at h
    by_cases ha : p a = true
    · rw [if_pos ha] at h
      simp only [if_true] at h
      exact ih c h
    · rw [if_neg ha] at h
      simp only [List.head?_cons, Option.some.injEq] at h
      rw [← h]
      cases hpa : p a
      · rfl
      · exact absurd hpa ha

/-- A run-collapsed list never contains two adjacent characters of the
collapsed class. -/
lemma collapseRunsAux_chain (p : Char → Bool) (r : Char) :
    ∀ (l : List Char) (b : Bool),
      List.Chain' (fun x y => ¬(p x = true ∧ p y = true)) (collapseRunsAux p r b l) := by
  intro l
  induction l with
  | nil => intro b; simp [collapseRunsAux]
  | cons a l ih =>
    intro b
    simp only [collapseRunsAux]
    by_cases ha : p a = true
    · rw [if_pos ha]
      cases b with
      | true => simpa using ih true
      | false =>
        simp only [Bool.false_eq_true, if_false]
        refine List.chain'_cons'.2 ⟨?_, ih true⟩
        intro y hy
        have hpy : p y = false :=
          collapseRunsAux_head_of_true p r l y (Option.mem_def.1 hy)
        rintro ⟨_, h2⟩
        rw [hpy] at h2
        exact Bool.false_ne_true h2
    · rw [if_neg ha]
      refine List.chain'_cons'.2 ⟨?_, ih false⟩
      intro y _
      rintro ⟨h1, _⟩
      exact ha h1

/-- Run collapsing is the identity on a list with no adjacent characters of
the class, all of whose class characters already equal the replacement. -/
lemma collapseRunsAux_eq_self (p : Char → Bool) (r : Char) :
    ∀ (l : List Char) (b : Bool),
      List.Chain' (fun x y => ¬(p x = true ∧ p y = true)) l →
      (∀ c ∈ l, p c = true → c = r) →
      (b = true → ∀ c, l.head? = some c → p c = false) →
      collapseRunsAux p r b l = l := by
  intro l
  induction l with
  | nil => intro b _ _ _; simp [collapseRunsAux]
  | cons a l ih =>
    intro b hch hmem hhd
    simp only [collapseRunsAux]
    cases b with
    | true =>
      have hpa : p a = false := hhd rfl a rfl
      rw [if_neg (by simp [hpa])]
      congr 1
      refine ih false hch.tail (fun c hc hp => hmem c (List.mem_cons_of_mem a hc) hp) ?_
      intro h
      exact absurd h (by simp)
    | false =>
      by_cases hpa : p a = true
      · have har : a = r := hmem a (by simp) hpa
        subst har
        rw [if_pos hpa]
        simp only [Bool.false_eq_true, if_false]
        congr 1
        refine ih true hch.tail (fun c hc hp => hmem c (List.mem_cons_of_mem a hc) hp) ?_
        intro _ c hc
        have hRc := (List.chain'_cons'.1 hch).1 c (Option.mem_def.2 hc)
        cases hpc : p c
        · rfl
        · exact absurd ⟨hpa, hpc⟩ hRc
      · rw [if_neg hpa]
        congr 1
        refine ih false hch.tail (fun c hc hp => hmem c (List.mem_cons_of_mem a hc) hp) ?_
        intro h
        exact absurd h (by simp)

/-- Head of a `dropWhile` result falsifies the dropped predicate. -/
lemma dropWhile_head?_false (p : Char → Bool) :
    ∀ (l : List Char) (c : Char), (l.dropWhile p).head? = some c → p c = false := by
  intro l
  induction l with
  | nil => intro c h; simp [List.dropWhile] at h
  | cons a l ih =>
    intro c h
    by_cases ha : p a = true
    · rw [List.dropWhile_cons, if_pos ha] at h
      exact ih c h
    · rw [List.dropWhile_cons, if_neg ha] at h
      simp only [List.head?_cons, Option.some.injEq] at h
      rw [← h]
      cases hpa : p a
      · rfl
      · exact absurd hpa ha

/-- `dropWhile` keeps the last element of the list (when anything is kept). -/
lemma dropWhile_getLast?_eq (p : Char → Bool) :
    ∀ (l : List Char) (c : Char), (l.dropWhile p).getLast? = some c →
      l.getLast? = some c := by
  intro l
  induction l with
  | nil => intro c h; simp [List.dropWhile] at h
  | cons a l ih =>
    intro c h
    by_cases ha : p a = true
    · rw [List.dropWhile_cons, if_pos ha] at h
      have hl := ih c h
      cases l with
      | nil => simp at hl
      | cons b l' => rw [List.getLast?_cons_cons]; exact hl
    · rw [List.dropWhile_cons, if_neg ha] at h
      exact h

/-- Members of a two-sided strip are members of the original list. -/
lemma stripBoth_subset (p : Char → Bool) (l : List Char) :
    ∀ c ∈ stripBoth p l, c ∈ l := by
  intro c hc
  unfold stripBoth at hc
  rw [List.mem_reverse] at hc
  have hc2 := (List.dropWhile_sublist p).subset hc
  rw [List.mem_reverse] at hc2
  exact (List.dropWhile_sublist p).subset hc2

/-- The first character surviving a two-sided strip falsifies the stripped
predicate. -/
lemma stripBoth_head?_false (p : Char → Bool) (l : List Char) (c : Char)
    (h : (stripBoth p l).head? = some c) : p c = false := by
  unfold stripBoth at h
  rw [List.head?_reverse] at h
  have h2 := dropWhile_getLast?_eq p _ c h
  rw [List.getLast?_reverse] at h2
  exact dropWhile_head?_false p _ c h2

/-- The last character surviving a two-sided strip falsifies the stripped
predicate. -/
lemma stripBoth_getLast?_false (p : Char → Bool) (l : List Char) (c : Char)
    (h : (stripBoth p l).getLast? = some c) : p c = false := by
  unfold stripBoth at h
  rw [List.getLast?_reverse] at h
  exact dropWhile_head?_false p _ c h

/-- A two-sided strip preserves chain conditions that are symmetric. -/
lemma stripBoth_chain (R : Char → Char → Prop) (hR : ∀ a b, R a b → R b a)
    (p : Char → Bool) (l : List Char) (h : List.Chain' R l) :
    List.Chain' R (stripBoth p l) := by
  unfold stripBoth
  have h1 : List.Chain' R (l.dropWhile p) := h.suffix (List.dropWhile_suffix p)
  have h2 : List.Chain' R ((l.dropWhile p).reverse) :=
    List.chain'_reverse.2 (h1.imp (fun a b hab => hR a b hab))
  have h3 : List.Chain' R (((l.dropWhile p).reverse).dropWhile p) :=
    h2.suffix (List.dropWhile_suffix p)
  exact List.chain'_reverse.2 (h3.imp (fun a b hab => hR a b hab))

/-- A two-sided strip is the identity when neither end satisfies the
stripped predicate. -/
lemma dropWhile_eq_self_of_head (p : Char → Bool) (l : List Char)
    (h : ∀ c, l.head? = some c → p c = false) : l.dropWhile p = l := by
  cases l with
  | nil => rfl
  | cons a l =>
    rw [List.dropWhile_cons, if_neg]
    rw [h a rfl]
    simp

/-- A two-sided strip is the identity when neither end satisfies the
stripped predicate. -/
lemma stripBoth_eq_self (p : Char → Bool) (l : List Char)
    (h1 : ∀ c, l.head? = some c → p c = false)
    (h2 : ∀ c, l.getLast? = some c → p c = false) : stripBoth p l = l := by
  unfold stripBoth
  rw [dropWhile_eq_self_of_head p l h1]
  rw [dropWhile_eq_self_of_head p l.reverse (fun c hc => h2 c (by rwa [List.head?_reverse] at hc))]
  exact List.reverse_reverse l

/-- Test for membership in `[a-z0-9]`, as an explicit disjunction of range
conditions. -/
lemma isAlnumLower_iff (c : Char) :
    isAlnumLower c = true ↔ ('a' ≤ c ∧ c ≤ 'z') ∨ ('0' ≤ c ∧ c ≤ '9') := by
  simp [isAlnumLower, Bool.or_eq_true, Bool.and_eq_true, decide_eq_true_eq]

/-- A slug character (lowercase alphanumeric or underscore) is untouched by
every character-level operation of the pipeline: it is not whitespace, is
fixed by lower-casing, is not an ampersand and is not apostrophe-like. -/
lemma slugChar_not_special (c : Char) (h : isAlnumLower c = true ∨ c = '_') :
    pySpace c = false ∧ lowerChar c = c ∧ ¬(c = '&') ∧ isQuoteChar c = false := by
  rcases h with h | rfl
  · have hne : ∀ d : Char, isAlnumLower d = false → ¬(c = d) := by
      intro d hd hcd
      rw [hcd] at h
      rw [h] at hd
      exact absurd hd (by decide)
    refine ⟨?_, ?_, hne '&' (by decide), ?_⟩
    · simp only [pySpace, Bool.or_eq_false_iff, beq_eq_false_iff_ne, ne_eq]
      exact ⟨⟨⟨⟨⟨hne ' ' (by decide), hne '\t' (by decide)⟩, hne '\n' (by decide)⟩,
        hne '\r' (by decide)⟩, hne '\x0b' (by decide)⟩, hne '\x0c' (by decide)⟩
    · rw [lowerChar, if_neg]
      rintro ⟨hA, hZ⟩
      rcases (isAlnumLower_iff c).1 h with ⟨ha, _⟩ | ⟨_, h9⟩
      · exact absurd hZ (not_le.2 (lt_of_lt_of_le (by decide : ('Z' : Char) < 'a') ha))
      · exact absurd hA (not_le.2 (lt_of_le_of_lt h9 (by decide : ('9' : Char) < 'A')))
    · simp only [isQuoteChar, Bool.or_eq_false_iff, beq_eq_false_iff_ne, ne_eq]
      exact ⟨⟨hne '’' (by decide), hne (Char.ofNat 39) (by decide)⟩,
        hne (Char.ofNat 96) (by decide)⟩
  · exact ⟨by decide, by decide, by decide, by decide⟩

/-- Ampersand expansion is the identity on ampersand-free lists. -/
lemma replaceAmp_eq_self (l : List Char) (h : ∀ c ∈ l, ¬(c = '&')) :
    replaceAmp l = l := by
  induction l with
  | nil => rfl
  | cons a l ih =>
    have ha : ¬((a == '&') = true) := by
      simp only [beq_iff_eq]
      exact h a (List.mem_cons_self a l)
    simp only [replaceAmp, if_neg ha]
    rw [ih (fun c hc => h c (List.mem_cons_of_mem a hc))]

/-- An underscore is outside `[a-z0-9]`. -/
lemma underscore_bad (x : Char) (hx : isUnderscore x = true) :
    (!(isAlnumLower x)) = true := by
  have hx' : x = '_' := by simpa [isUnderscore] using hx
  subst hx'
  decide

/-- Every character of a slug is a lowercase alphanumeric or an
underscore. -/
lemma slugifyList_mem (l : List Char) :
    ∀ c ∈ slugifyList l, isAlnumLower c = true ∨ c = '_' := by
  intro c hc
  simp only [slugifyList, collapseRuns] at hc
  have hc5 := stripBoth_subset _ _ c hc
  rcases collapseRunsAux_mem isUnderscore '_' _ false c hc5 with h | ⟨hc4, _⟩
  · exact Or.inr h
  rcases collapseRunsAux_mem _ '_' _ false c hc4 with h | ⟨_, hp⟩
  · exact Or.inr h
  · left
    simpa using hp

/-- A slug contains no two adjacent characters outside `[a-z0-9]`. -/
lemma slugifyList_chain_bad (l : List Char) :
    List.Chain' (fun x y => ¬((!(isAlnumLower x)) = true ∧ (!(isAlnumLower y)) = true))
      (slugifyList l) := by
  simp only [slugifyList, collapseRuns]
  generalize (stripBoth pySpace l).map lowerChar = s1
  generalize replaceAmp s1 = s2
  generalize s2.filter (fun c => !(isQuoteChar c)) = s3
  have h4 := collapseRunsAux_chain (fun c => !(isAlnumLower c)) '_' s3 false
  have h5eq : collapseRunsAux isUnderscore '_' false
      (collapseRunsAux (fun c => !(isAlnumLower c)) '_' false s3) =
      collapseRunsAux (fun c => !(isAlnumLower c)) '_' false s3 := by
    refine collapseRunsAux_eq_self isUnderscore '_' _ false ?_ ?_ ?_
    · exact h4.imp (fun a b hab hu => hab ⟨underscore_bad a hu.1, underscore_bad b hu.2⟩)
    · intro c _ hc
      simpa [isUnderscore] using hc
    · intro hfalse
      exact absurd hfalse (by simp)
  rw [h5eq]
  exact stripBoth_chain _ (fun a b hab hba => hab ⟨hba.2, hba.1⟩) isUnderscore _ h4

/-- A slug never starts with an underscore. -/
lemma slugifyList_head_ne (l : List Char) (c : Char)
    (h : (slugifyList l).head? = some c) : ¬(c = '_') := by
  simp only [slugifyList, collapseRuns] at h
  have hp : isUnderscore c = false := stripBoth_head?_false isUnderscore _ c h
  simpa [isUnderscore] using hp

/-- A slug never ends with an underscore. -/
lemma slugifyList_getLast_ne (l : List Char) (c : Char)
    (h : (slugifyList l).getLast? = some c) : ¬(c = '_') := by
  simp only [slugifyList, collapseRuns] at h
  have hp : isUnderscore c = false := stripBoth_getLast?_false isUnderscore _ c h
  simpa [isUnderscore] using hp

/-! ## C10: slug output invariants -/

/-- C10.  The output of `slugify_site_name` contains only characters from
`[a-z0-9_]`, never begins or ends with an underscore, and never contains
two consecutive underscores. -/
theorem slug_output_invariants (x : String) :
    (∀ c ∈ (slugify_site_name x).toList, isAlnumLower c = true ∨ c = '_') ∧
    (slugify_site_name x).toList.head? ≠ some '_' ∧
    (slugify_site_name x).toList.getLast? ≠ some '_' ∧
    List.Chain' (fun a b => ¬(a = '_' ∧ b = '_')) (slugify_site_name x).toList := by
  have ht : (slugify_site_name x).toList = slugifyList x.toList := rfl
  rw [ht]
  refine ⟨slugifyList_mem x.toList, ?_, ?_, ?_⟩
  · intro h
    exact slugifyList_head_ne x.toList '_' h rfl
  · intro h
    exact slugifyList_getLast_ne x.toList '_' h rfl
  · refine (slugifyList_chain_bad x.toList).imp ?_
    intro a b hab h
    rcases h with ⟨ha, hb⟩
    subst ha
    subst hb
    exact hab ⟨by decide, by decide⟩

/-! ## C6: idempotence on slug-shaped output -/

/-- C6.  Whenever the slug of `x` consists only of lowercase alphanumerics
and underscores, re-slugging it is a no-op:
`slugify_site_name (slugify_site_name x) = slugify_site_name x`. -/
theorem slugify_idempotent_on_slug (x : String)
    (h : ∀ c ∈ (slugify_site_name x).toList, isAlnumLower c = true ∨ c = '_') :
    slugify_site_name (slugify_site_name x) = slugify_site_name x := by
  have ht : (slugify_site_name x).toList = slugifyList x.toList := rfl
  rw [ht] at h
  suffices hs : slugifyList (slugifyList x.toList) = slugifyList x.toList by
    show String.mk (slugifyList (slugify_site_name x).toList) = String.mk (slugifyList x.toList)
    rw [ht, hs]
  have hchain := slugifyList_chain_bad x.toList
  have hh : ∀ c, (slugifyList x.toList).head? = some c → isUnderscore c = false := by
    intro c hc
    have := slugifyList_head_ne x.toList c hc
    simpa [isUnderscore] using this
  have hl : ∀ c, (slugifyList x.toList).getLast? = some c → isUnderscore c = false := by
    intro c hc
    have := slugifyList_getLast_ne x.toList c hc
    simpa [isUnderscore] using this
  generalize hgen : slugifyList x.toList = s at h hchain hh hl
  have hstep1 : stripBoth pySpace s = s :=
    stripBoth_eq_self pySpace s
      (fun c hc =>
        (slugChar_not_special c (h c (List.mem_of_mem_head? (Option.mem_def.2 hc)))).1)
      (fun c hc =>
        (slugChar_not_special c (h c (List.mem_of_mem_getLast? (Option.mem_def.2 hc)))).1)
  have hstep2 : s.map lowerChar = s := by
    have hmap : s.map lowerChar = s.map id :=
      List.map_congr_left (fun c hc => (slugChar_not_special c (h c hc)).2.1)
    rw [hmap, List.map_id]
  have hstep3 : replaceAmp s = s :=
    replaceAmp_eq_self s (fun c hc => (slugChar_not_special c (h c hc)).2.2.1)
  have hstep4 : s.filter (fun c => !(isQuoteChar c)) = s := by
    refine List.filter_eq_self.2 (fun c hc => ?_)
    rw [(slugChar_not_special c (h c hc)).2.2.2]
    rfl
  have hstep5 : collapseRunsAux (fun c => !(isAlnumLower c)) '_' false s = s := by
    refine collapseRunsAux_eq_self _ '_' s false hchain ?_ ?_
    · intro c hc hp
      rcases h c hc with halnum | hu
      · rw [halnum] at hp
        exact absurd hp (by simp)
      · exact hu
    · intro hfalse
      exact absurd hfalse (by simp)
  have hchainU : List.Chain' (fun a b => ¬(isUnderscore a = true ∧ isUnderscore b = true)) s :=
    hchain.imp (fun a b hab hu => hab ⟨underscore_bad a hu.1, underscore_bad b hu.2⟩)
  have hstep6 : collapseRunsAux isUnderscore '_' false s = s := by
    refine collapseRunsAux_eq_self isUnderscore '_' s false hchainU ?_ ?_
    · intro c _ hc
      simpa [isUnderscore] using hc
    · intro hfalse
      exact absurd hfalse (by simp)
  have hstep7 : stripBoth isUnderscore s = s := stripBoth_eq_self isUnderscore s hh hl
  simp only [slugifyList, collapseRuns]
  rw [hstep1, hstep2, hstep3, hstep4, hstep5, hstep6, hstep7]

/-- Closed instantiation of `slugify_idempotent_on_slug` at `"Ab c"`, whose
slug `ab_c` is made of lowercase alphanumerics and an underscore. -/
theorem slugify_idempotent_on_slug_witness :
    (∀ c ∈ (slugify_site_name "Ab c").toList, isAlnumLower c = true ∨ c = '_') ∧
    slugify_site_name (slugify_site_name "Ab c") = slugify_site_name "Ab c" :=
  ⟨by decide, slugify_idempotent_on_slug "Ab c" (by decide)⟩

/-! ## C5: slug pipeline order and examples -/

/-- C5.  `slugify_site_name` is exactly the pipeline described by the
specification, in the stated order (trim, lowercase, ampersand expansion,
apostrophe stripping, non-alphanumeric run collapse, underscore-run
collapse, underscore trim), and maps `"St. Jude's & Sons"` to
`st_judes_and_sons` and a pure-whitespace input to the empty slug. -/
theorem slugify_pipeline_order :
    (∀ x : String, slugify_site_name x = specSlug x) ∧
    slugify_site_name "St. Jude's & Sons" = "st_judes_and_sons" ∧
    slugify_site_name "   " = "" :=
  ⟨fun _ => rfl, by decide, by decide⟩

/-! ## Helper lemmas about the discovery loop -/

/-- One cycle only grows the accumulated set. -/
lemma seen_mono_succ (reads : Nat → Finset Nat) (n : Nat) :
    (discState reads n).seen ⊆ (discState reads (n + 1)).seen :=
  Finset.subset_union_left

/-- The accumulated set is monotone over cycles. -/
lemma seen_mono (reads : Nat → Finset Nat) {m n : Nat} (h : m ≤ n) :
    (discState reads m).seen ⊆ (discState reads n).seen := by
  induction n with
  | zero =>
    have hm : m = 0 := by omega
    subst hm
    exact subset_rfl
  | succ n ih =>
    by_cases hm : m = n + 1
    · subst hm
      exact subset_rfl
    · exact subset_trans (ih (by omega)) (seen_mono_succ reads n)

/-- The accumulated set stays inside the universe the reads are drawn
from. -/
lemma seen_subset (reads : Nat → Finset Nat) (U : Finset Nat)
    (hsub : ∀ k, reads k ⊆ U) : ∀ n, (discState reads n).seen ⊆ U := by
  intro n
  induction n with
  | zero => exact Finset.empty_subset U
  | succ n ih => exact Finset.union_subset ih (hsub n)

/-- The stability counter after a cycle: incremented on no growth, reset on
growth. -/
lemma stable_succ_eq (reads : Nat → Finset Nat) (n : Nat) :
    (discState reads (n + 1)).stable =
      if (discState reads (n + 1)).seen.card = (discState reads n).seen.card then
        (discState reads n).stable + 1
      else 0 := rfl

/-- Six consecutive no-growth cycles push the counter to at least six. -/
lemma stable_of_nogrowth (reads : Nat → Finset Nat) (n : Nat)
    (h : ∀ i, i < 6 →
      (discState reads (n + i + 1)).seen.card = (discState reads (n + i)).seen.card) :
    6 ≤ (discState reads (n + 6)).stable := by
  have aux : ∀ j, j ≤ 6 → j ≤ (discState reads (n + j)).stable := by
    intro j
    induction j with
    | zero => intro _; exact Nat.zero_le _
    | succ j ih =>
      intro hj
      have hst : (discState reads (n + j + 1)).stable =
          (discState reads (n + j)).stable + 1 := by
        rw [stable_succ_eq, if_pos (h j (by omega))]
      have hadd : n + (j + 1) = n + j + 1 := by omega
      rw [hadd, hst]
      have := ih (by omega)
      omega
  exact aux 6 le_rfl

/-- Termination of discovery: with reads drawn from a finite universe, the
stability counter eventually reaches six. -/
lemma disc_terminates (reads : Nat → Finset Nat) (U : Finset Nat)
    (hsub : ∀ k, reads k ⊆ U) : ∃ N, 6 ≤ (discState reads N).stable := by
  have aux : ∀ (d n : Nat), U.card - (discState reads n).seen.card ≤ d →
      ∃ N, 6 ≤ (discState reads N).stable := by
    intro d
    induction d with
    | zero =>
      intro n hd
      refine ⟨n + 6, stable_of_nogrowth reads n ?_⟩
      intro i _
      have h1 : (discState reads (n + i)).seen.card ≤ U.card :=
        Finset.card_le_card (seen_subset reads U hsub _)
      have h2 : (discState reads (n + i + 1)).seen.card ≤ U.card :=
        Finset.card_le_card (seen_subset reads U hsub _)
      have h3 : (discState reads n).seen.card ≤ (discState reads (n + i)).seen.card :=
        Finset.card_le_card (seen_mono reads (Nat.le_add_right n i))
      have h4 : (discState reads (n + i)).seen.card ≤
          (discState reads (n + i + 1)).seen.card :=
        Finset.card_le_card (seen_mono_succ reads (n + i))
      omega
    | succ d ih =>
      intro n hd
      by_cases hgrow : ∀ i, i < 6 →
        (discState reads (n + i + 1)).seen.card = (discState reads (n + i)).seen.card
      · exact ⟨n + 6, stable_of_nogrowth reads n hgrow⟩
      · push_neg at hgrow
        obtain ⟨i, _, hne⟩ := hgrow
        have hle : (discState reads (n + i)).seen.card ≤
            (discState reads (n + i + 1)).seen.card :=
          Finset.card_le_card (seen_mono_succ reads (n + i))
        have hmono : (discState reads n).seen.card ≤ (discState reads (n + i)).seen.card :=
          Finset.card_le_card (seen_mono reads (Nat.le_add_right n i))
        have hub : (discState reads (n + i + 1)).seen.card ≤ U.card :=
          Finset.card_le_card (seen_subset reads U hsub _)
        refine ih (n + i + 1) ?_
        omega
  exact aux U.card 0 (Nat.sub_le U.card _)

/-- The fuel-indexed loop, run from the state before cycle `j` with enough
fuel, stops exactly at the first cycle whose entry state has counter 6. -/
lemma discLoop_eq_discState (reads : Nat → Finset Nat) (N : Nat)
    (hlt : ∀ m, m < N → (discState reads m).stable < 6)
    (h6 : 6 ≤ (discState reads N).stable) :
    ∀ (fuel j : Nat), j ≤ N → N ≤ j + fuel →
      discLoop reads fuel j (discState reads j) = discState reads N := by
  intro fuel
  induction fuel with
  | zero =>
    intro j hj hN
    have hjN : j = N := by omega
    rw [hjN, discLoop]
  | succ fuel ih =>
    intro j hj hN
    rcases eq_or_lt_of_le hj with rfl | hjN
    · rw [discLoop, if_neg (by omega)]
    · rw [discLoop, if_pos (hlt j hjN)]
      have hstep : discStep reads j (discState reads j) = discState reads (j + 1) := rfl
      rw [hstep]
      exact ih (j + 1) (by omega) (by omega)

/-! ## C2: discovery stability -/

/-- C2 counterexample.  The reads `lateReads` are drawn from the universe
`{1, 2}` and every identifier is eventually rendered (2 at cycle 7), yet the
loop terminates after cycle 6 — six consecutive no-growth cycles — and
returns `[1]`, not the sorted universe `[1, 2]`. -/
theorem discovery_eventual_cex :
    (∀ n, lateReads n ⊆ ({1, 2} : Finset Nat)) ∧
    (∀ x ∈ ({1, 2} : Finset Nat), ∃ n, x ∈ lateReads n) ∧
    (∀ m, m < 7 → (discState lateReads m).stable < 6) ∧
    (discState lateReads 7).stable = 6 ∧
    (∀ fuel, 7 ≤ fuel → get_all_site_ids lateReads fuel = [1]) ∧
    ¬([1] = ({1, 2} : Finset Nat).sort (· ≤ ·)) := by
  refine ⟨?_, ?_, by decide, by decide, ?_, ?_⟩
  · intro n
    simp only [lateReads]
    split_ifs <;> decide
  · intro x hx
    fin_cases hx
    · exact ⟨0, by decide⟩
    · exact ⟨7, by decide⟩
  · intro fuel hfuel
    have hlt : ∀ m, m < 7 → (discState lateReads m).stable < 6 := by decide
    have h6 : 6 ≤ (discState lateReads 7).stable := by decide
    have hrun : discLoop lateReads fuel 0 ⟨∅, 0⟩ = discState lateReads 7 := by
      have h0 : (⟨∅, 0⟩ : DiscState) = discState lateReads 0 := rfl
      rw [h0]
      exact discLoop_eq_discState lateReads 7 hlt h6 fuel 0 (Nat.zero_le 7) (by omega)
    rw [get_all_site_ids, hrun]
    have hseen : (discState lateReads 7).seen = {1} := by decide
    rw [hseen]
    exact Finset.sort_singleton (· ≤ ·) 1
  · intro h
    have hsort : ({1, 2} : Finset Nat).sort (· ≤ ·) = [1, 2] := by
      have h12 : ({1, 2} : Finset Nat) = insert 1 {2} := rfl
      rw [h12, Finset.sort_insert (· ≤ ·) (by decide) (by decide)]
      rw [Finset.sort_singleton (· ≤ ·) 2]
    rw [hsort] at h
    simp at h

/-- C2 amended.  For any reads drawn from a finite universe, discovery
terminates exactly when the stability counter first reaches 6 consecutive
no-growth cycles, and it returns the identifiers accumulated by then,
sorted strictly ascending — unconditionally.  The result is precisely the
universe provided every identifier is rendered in some cycle executed
before termination (eventual rendering alone does not suffice: rendering
may come only after six no-growth cycles, see the counterexample). -/
theorem get_all_site_ids_stability (reads : Nat → Finset Nat) (U : Finset Nat)
    (hsub : ∀ n, reads n ⊆ U) :
    ∃ N, (∀ m, m < N → (discState reads m).stable < 6) ∧
      (discState reads N).stable = 6 ∧
      (∀ fuel, N ≤ fuel →
        get_all_site_ids reads fuel = ((discState reads N).seen).sort (· ≤ ·) ∧
        List.Sorted (· < ·) (get_all_site_ids reads fuel)) ∧
      ((∀ x ∈ U, ∃ n, x ∈ reads n ∧
          ∀ m, m ≤ n → (discState reads m).stable < 6) →
        (discState reads N).seen = U ∧
        ∀ fuel, N ≤ fuel → get_all_site_ids reads fuel = U.sort (· ≤ ·)) := by
  have hex := disc_terminates reads U hsub
  have hN6 : 6 ≤ (discState reads (Nat.find hex)).stable := Nat.find_spec hex
  have hlt : ∀ m, m < Nat.find hex → (discState reads m).stable < 6 :=
    fun m hm => Nat.lt_of_not_le (Nat.find_min hex hm)
  have hrun : ∀ fuel, Nat.find hex ≤ fuel →
      discLoop reads fuel 0 ⟨∅, 0⟩ = discState reads (Nat.find hex) := by
    intro fuel hfuel
    have h0 : (⟨∅, 0⟩ : DiscState) = discState reads 0 := rfl
    rw [h0]
    exact discLoop_eq_discState reads (Nat.find hex) hlt hN6 fuel 0 (Nat.zero_le _) (by omega)
  refine ⟨Nat.find hex, hlt, ?_, ?_, ?_⟩
  · cases hN0 : Nat.find hex with
    | zero =>
      rw [hN0] at hN6
      have h0 : (discState reads 0).stable = 0 := rfl
      omega
    | succ n =>
      have hn : (discState reads n).stable < 6 :=
        Nat.lt_of_not_le (Nat.find_min hex (by omega))
      rw [hN0] at hN6
      rw [stable_succ_eq] at hN6 ⊢
      by_cases hc : (discState reads (n + 1)).seen.card = (discState reads n).seen.card
      · rw [if_pos hc] at hN6 ⊢
        omega
      · rw [if_neg hc] at hN6
        omega
  · intro fuel hfuel
    rw [get_all_site_ids, hrun fuel hfuel]
    exact ⟨rfl, Finset.sort_sorted_lt _⟩
  · intro hcov
    have hseen : (discState reads (Nat.find hex)).seen = U := by
      refine Finset.Subset.antisymm (seen_subset reads U hsub _) ?_
      intro x hx
      obtain ⟨n, hxr, hexec⟩ := hcov x hx
      have hnN : n + 1 ≤ Nat.find hex := by
        by_contra hcon
        push_neg at hcon
        have := hexec (Nat.find hex) (by omega)
        omega
      have hx1 : x ∈ (discState reads (n + 1)).seen := by
        show x ∈ (discState reads n).seen ∪ reads n
        exact Finset.mem_union_right _ hxr
      exact seen_mono reads hnN hx1
    refine ⟨hseen, ?_⟩
    intro fuel hfuel
    rw [get_all_site_ids, hrun fuel hfuel, hseen]

/-- Closed instantiation of `get_all_site_ids_stability`: reads drawn from
`{1, 2}`, with every identifier rendered at cycle 0, before any no-growth
streak. -/
theorem get_all_site_ids_stability_witness :
    (∀ n, promptReads n ⊆ ({1, 2} : Finset Nat)) ∧
    (∃ N, (∀ m, m < N → (discState promptReads m).stable < 6) ∧
      (discState promptReads N).stable = 6 ∧
      (∀ fuel, N ≤ fuel →
        get_all_site_ids promptReads fuel = ((discState promptReads N).seen).sort (· ≤ ·) ∧
        List.Sorted (· < ·) (get_all_site_ids promptReads fuel)) ∧
      ((∀ x ∈ ({1, 2} : Finset Nat), ∃ n, x ∈ promptReads n ∧
          ∀ m, m ≤ n → (discState promptReads m).stable < 6) →
        (discState promptReads N).seen = ({1, 2} : Finset Nat) ∧
        ∀ fuel, N ≤ fuel →
          get_all_site_ids promptReads fuel = ({1, 2} : Finset Nat).sort (· ≤ ·))) := by
  have hsub : ∀ n, promptReads n ⊆ ({1, 2} : Finset Nat) := by
    intro n
    simp only [promptReads]
    split_ifs <;> decide
  exact ⟨hsub, get_all_site_ids_stability promptReads {1, 2} hsub⟩

end Scraper

